import Mathlib

/-!
Sequential shallow embedding of the lock-free containers in `src/lfs/`
(`LockFreeStack`, `LockFreeQueue`, `BoundedLockFreeQueue`).

Modelling conventions:
* Heap pointers become addresses in an append-only arena `List (Option _)`;
  address `0` is the null pointer, address `a+1` denotes entry `a` of the
  arena.  `Box::into_raw(Box::new _)` appends a fresh entry (fresh address),
  `drop(Box::from_raw p)` replaces the entry by `none`.
* We give the single-thread semantics of each operation: every atomic load
  returns the current value, the freshness re-check (`tail == self.tail.load`)
  succeeds, and every `compare_exchange_weak` whose expected value matches
  succeeds (no spurious failure, no interference).
* CAS retry loops are translated with explicit fuel; running out of fuel, or
  dereferencing a null/freed pointer (undefined behaviour in the source),
  yields `none`.  From reachable states the loops finish in one iteration.
* `usize` counters become `Nat`.  The bounded queue only subtracts
  `tail - head` in states where `head ≤ tail`, so truncated `Nat`
  subtraction agrees with `usize` subtraction there; `saturating_sub` is
  exactly `Nat` subtraction.
-/

/-- Arena lookup: address `0` is null, address `i+1` is slot `i`; a freed
slot holds `none`. -/
def memAt (mem : List (Option α)) (a : Nat) : Option α :=
  match a with
  | 0 => none
  | i + 1 => (mem[i]?).join

/-- Overwrite the arena entry at address `a` (no-op on null). -/
def memWrite (mem : List (Option α)) (a : Nat) (x : Option α) : List (Option α) :=
  match a with
  | 0 => mem
  | i + 1 => mem.set i x

/-! ### TreiberStack (`src/lfs/stack.rs`) -/

/-- Stack node (`Node<T>` in `stack.rs`): a value and a raw next pointer. -/
structure StackNode (T : Type) where
  value : T
  next : Nat
deriving Repr, DecidableEq

/-- State of `LockFreeStack<T>`: an atomic `top` pointer into the node arena. -/
structure LockFreeStack (T : Type) where
  mem : List (Option (StackNode T))
  top : Nat
deriving Repr, DecidableEq

/-- Model of `LockFreeStack::new`: null top, nothing allocated. -/
def LockFreeStack.new (T : Type) : LockFreeStack T := ⟨[], 0⟩

/-- Model of `LockFreeStack::push`, sequentially: allocate a node, link its `next` to
the current top, CAS `top` to the new node (succeeds first try). -/
def LockFreeStack.push (s : LockFreeStack T) (v : T) : LockFreeStack T :=
  let newAddr := s.mem.length + 1
  { mem := s.mem ++ [some ⟨v, s.top⟩], top := newAddr }

/-- Model of `LockFreeStack::pop`, sequentially: null top returns `none` immediately;
otherwise CAS `top` to `top.next` (succeeds), move the value out, free the
node.  The outer `Option` is the execution itself: dereferencing a dangling
`top` (impossible from reachable states) gives `none`. -/
def LockFreeStack.pop (s : LockFreeStack T) : Option (Option T × LockFreeStack T) :=
  if s.top = 0 then
    some (none, s)
  else
    match memAt s.mem s.top with
    | none => none
    | some n => some (some n.value, { mem := memWrite s.mem s.top none, top := n.next })

/-- Push a whole list, left to right. -/
def LockFreeStack.pushAll (s : LockFreeStack T) : List T → LockFreeStack T
  | [] => s
  | v :: vs => (s.push v).pushAll vs

/-- Pop `n` times, collecting the `n` results in order. -/
def LockFreeStack.popN (s : LockFreeStack T) : Nat → Option (List (Option T) × LockFreeStack T)
  | 0 => some ([], s)
  | n + 1 =>
    match s.pop with
    | none => none
    | some (r, s₁) =>
      match s₁.popN n with
      | none => none
      | some (rs, s₂) => some (r :: rs, s₂)

/-! ### UnboundedQueue (`src/lfs/queue.rs`, `LockFreeQueue`) -/

/-- Queue node (`Node<T>` in `queue.rs`): an optional value cell and an atomic
next pointer. -/
structure QueueNode (T : Type) where
  value : Option T
  next : Nat
deriving Repr, DecidableEq

/-- Update only the `next` field of the node at address `a`. -/
def setNext (mem : List (Option (QueueNode T))) (a addr : Nat) : List (Option (QueueNode T)) :=
  match memAt mem a with
  | none => mem
  | some n => memWrite mem a (some { n with next := addr })

/-- State of `LockFreeQueue<T>`: atomic head and tail pointers into the node arena. -/
structure LockFreeQueue (T : Type) where
  mem : List (Option (QueueNode T))
  head : Nat
  tail : Nat
deriving Repr, DecidableEq

/-- Model of `LockFreeQueue::new`: head and tail both point at a fresh valueless
sentinel node. -/
def LockFreeQueue.new (T : Type) : LockFreeQueue T :=
  { mem := [some ⟨none, 0⟩], head := 1, tail := 1 }

/-- One-thread semantics of the `enqueue` CAS loop.  Each iteration: load
`tail` and `tail.next`; the freshness check passes; if `tail.next` is null,
CAS it to the new node and swing `tail` (both succeed) — done; otherwise
swing `tail` to its successor and retry. -/
def LockFreeQueue.enqLoop (T : Type) :
    Nat → List (Option (QueueNode T)) → Nat → Nat → Nat → Option (LockFreeQueue T)
  | 0, _, _, _, _ => none
  | fuel + 1, mem, head, tail, newAddr =>
    match memAt mem tail with
    | none => none
    | some tn =>
      if tn.next = 0 then
        some { mem := setNext mem tail newAddr, head := head, tail := newAddr }
      else
        LockFreeQueue.enqLoop T fuel mem head tn.next newAddr

/-- Model of `LockFreeQueue::enqueue`, sequentially: allocate the node carrying the
value, then run the linking loop (fuel one more than the arena size). -/
def LockFreeQueue.enqueue (q : LockFreeQueue T) (v : T) : Option (LockFreeQueue T) :=
  let newAddr := q.mem.length + 1
  let mem₁ := q.mem ++ [some ⟨some v, 0⟩]
  LockFreeQueue.enqLoop T (mem₁.length + 1) mem₁ q.head q.tail newAddr

/-- One-thread semantics of the `dequeue` CAS loop.  Each iteration: load
`head`, `tail`, `head.next`; freshness passes; if `head = tail` then either
the queue is empty (`head.next` null) or tail lags (swing it and retry);
otherwise CAS `head` forward (succeeds), read the value out of the new head
node, and free the old head. -/
def LockFreeQueue.deqLoop (T : Type) :
    Nat → List (Option (QueueNode T)) → Nat → Nat → Option (Option T × LockFreeQueue T)
  | 0, _, _, _ => none
  | fuel + 1, mem, head, tail =>
    match memAt mem head with
    | none => none
    | some hn =>
      if head = tail then
        if hn.next = 0 then
          some (none, { mem := mem, head := head, tail := tail })
        else
          LockFreeQueue.deqLoop T fuel mem head hn.next
      else
        match memAt mem hn.next with
        | none => none
        | some nn =>
          some (nn.value, { mem := memWrite mem head none, head := hn.next, tail := tail })

/-- Model of `LockFreeQueue::dequeue`, sequentially. -/
def LockFreeQueue.dequeue (q : LockFreeQueue T) : Option (Option T × LockFreeQueue T) :=
  LockFreeQueue.deqLoop T (q.mem.length + 1) q.mem q.head q.tail

/-- Model of `LockFreeQueue::is_empty`: load `head`, dereference it, test whether its
`next` is null.  Only `head` and the arena are consulted, never `tail`. -/
def LockFreeQueue.isEmpty (q : LockFreeQueue T) : Option Bool :=
  (memAt q.mem q.head).map fun hn => hn.next = 0

/-- Enqueue a whole list, left to right. -/
def LockFreeQueue.enqueueAll (q : LockFreeQueue T) : List T → Option (LockFreeQueue T)
  | [] => some q
  | v :: vs =>
    match q.enqueue v with
    | none => none
    | some q₁ => q₁.enqueueAll vs

/-- Dequeue `n` times, collecting the `n` results in order. -/
def LockFreeQueue.dequeueN (q : LockFreeQueue T) : Nat → Option (List (Option T) × LockFreeQueue T)
  | 0 => some ([], q)
  | n + 1 =>
    match q.dequeue with
    | none => none
    | some (r, q₁) =>
      match q₁.dequeueN n with
      | none => none
      | some (rs, q₂) => some (r :: rs, q₂)

/-! ### BoundedRingQueue (`src/lfs/queue.rs`, `BoundedLockFreeQueue`) -/

/-- Rust `usize::next_power_of_two` (smallest power of two that is ≥ the
argument, with 0 mapped to 1), written as the doubling loop with explicit
fuel so that it computes structurally. -/
def nextPow2Go (fuel power n : Nat) : Nat :=
  match fuel with
  | 0 => power
  | fuel + 1 => if power < n then nextPow2Go fuel (power * 2) n else power

/-- Rust `usize::next_power_of_two`. -/
def nextPow2 (n : Nat) : Nat := nextPow2Go n 1 n

/-- State of `BoundedLockFreeQueue<T>`: a leaked buffer of `capacity` value cells and
monotone head/tail counters.  Only the `value` cell of each buffer node is
ever used, so the buffer is the list of cells. -/
structure BoundedLockFreeQueue (T : Type) where
  buffer : List (Option T)
  capacity : Nat
  head : Nat
  tail : Nat
deriving Repr, DecidableEq

/-- Model of `BoundedLockFreeQueue::new`: round the capacity up to the next power of
two and allocate that many empty cells. -/
def BoundedLockFreeQueue.new (T : Type) (capacity : Nat) : BoundedLockFreeQueue T :=
  let capacity := nextPow2 capacity
  { buffer := List.replicate capacity none
    capacity := capacity
    head := 0
    tail := 0 }

/-- Model of `BoundedLockFreeQueue::enqueue`, sequentially: load `tail` and `head`;
if `tail - head ≥ capacity` hand the value back as `Except.error`; otherwise
the CAS `tail → tail+1` succeeds and the value is written into the cell at
`tail & mask`.  The state is returned alongside the result so that the
no-mutation-on-error behaviour is visible. -/
def BoundedLockFreeQueue.enqueue (q : BoundedLockFreeQueue T) (v : T) :
    Except T Unit × BoundedLockFreeQueue T :=
  let mask := q.capacity - 1
  let tail := q.tail
  let head := q.head
  if q.capacity ≤ tail - head then
    (Except.error v, q)
  else
    let index := tail &&& mask
    (Except.ok (), { q with buffer := q.buffer.set index (some v), tail := tail + 1 })

/-- Model of `BoundedLockFreeQueue::dequeue`, sequentially: load `head` and `tail`;
if `head ≥ tail` return empty; otherwise the CAS `head → head+1` succeeds and
the value is taken (`Option::take`) out of the cell at `head & mask`. -/
def BoundedLockFreeQueue.dequeue (q : BoundedLockFreeQueue T) :
    Option T × BoundedLockFreeQueue T :=
  let mask := q.capacity - 1
  let head := q.head
  let tail := q.tail
  if tail ≤ head then
    (none, q)
  else
    let index := head &&& mask
    ((q.buffer[index]?).join,
      { q with buffer := q.buffer.set index none, head := head + 1 })

/-- Model of `BoundedLockFreeQueue::is_empty`: `head ≥ tail`. -/
def BoundedLockFreeQueue.isEmpty (q : BoundedLockFreeQueue T) : Bool :=
  decide (q.tail ≤ q.head)

/-- Model of `BoundedLockFreeQueue::is_full`: `tail - head ≥ capacity`. -/
def BoundedLockFreeQueue.isFull (q : BoundedLockFreeQueue T) : Bool :=
  decide (q.capacity ≤ q.tail - q.head)

/-- Model of `BoundedLockFreeQueue::len`: `tail.saturating_sub(head)`. -/
def BoundedLockFreeQueue.len (q : BoundedLockFreeQueue T) : Nat :=
  q.tail - q.head

/-- Note on `BoundedLockFreeQueue::capacity`: it returns the `capacity` field; the
structure projection `BoundedLockFreeQueue.capacity` is that accessor. -/
def BoundedLockFreeQueue.enqueueAll (q : BoundedLockFreeQueue T) :
    List T → List (Except T Unit) × BoundedLockFreeQueue T
  | [] => ([], q)
  | v :: vs =>
    let p := q.enqueue v
    let rest := p.2.enqueueAll vs
    (p.1 :: rest.1, rest.2)

/-- Dequeue `n` times, collecting the `n` results in order. -/
def BoundedLockFreeQueue.dequeueN (q : BoundedLockFreeQueue T) :
    Nat → List (Option T) × BoundedLockFreeQueue T
  | 0 => ([], q)
  | n + 1 =>
    let p := q.dequeue
    let rest := p.2.dequeueN n
    (p.1 :: rest.1, rest.2)

/-- Whether a `Result` is the success constructor. -/
def Except.isOkay : Except ε α → Bool
  | Except.ok _ => true
  | Except.error _ => false

/-! ### Abstraction functions, invariants and reachable states -/

/-- Logical contents of the unbounded queue, read off the heap: walk the
`next` chain starting at the sentinel pointed to by `head` and collect the
values of the nodes after it; `none` if the walk dereferences an invalid
pointer, reaches no null terminator within the fuel, or meets a valueless
non-sentinel node. -/
def LockFreeQueue.itemsFrom (T : Type) :
    Nat → List (Option (QueueNode T)) → Nat → Option (List T)
  | 0, _, _ => none
  | fuel + 1, mem, a =>
    match memAt mem a with
    | none => none
    | some n =>
      if n.next = 0 then some []
      else
        match memAt mem n.next, LockFreeQueue.itemsFrom T fuel mem n.next with
        | some m, some vs =>
          match m.value with
          | some v => some (v :: vs)
          | none => none
        | _, _ => none

/-- Logical contents of the unbounded queue. -/
def LockFreeQueue.items (q : LockFreeQueue T) : Option (List T) :=
  LockFreeQueue.itemsFrom T (q.mem.length + 1) q.mem q.head

/-- The head node chain of the unbounded queue: `ChainTo mem t a vs` says
that starting at address `a` and following `next` pointers one reaches `t`,
the node at `t` has null `next`, and the values carried by the nodes strictly
after `a` are exactly `vs`. -/
inductive ChainTo (mem : List (Option (QueueNode T))) (t : Nat) : Nat → List T → Prop
  | nil (n : QueueNode T) (ha : memAt mem t = some n) (hn : n.next = 0) :
      ChainTo mem t t []
  | cons (a : Nat) (n m : QueueNode T) (v : T) (vs : List T)
      (ha : memAt mem a = some n)
      (hb : memAt mem n.next = some m) (hv : m.value = some v)
      (hrest : ChainTo mem t n.next vs) :
      ChainTo mem t a (v :: vs)

/-- Pointer reachability by following `next` fields. -/
inductive Reaches (mem : List (Option (QueueNode T))) : Nat → Nat → Prop
  | refl (a : Nat) : Reaches mem a a
  | step (a b : Nat) (n : QueueNode T) (ha : memAt mem a = some n)
      (hr : Reaches mem n.next b) : Reaches mem a b

/-- Allocation-order discipline of the queue arena: every live node sits
inside the arena and its `next` pointer is either null or a strictly larger
live-range address.  This holds because nodes are only ever linked to nodes
allocated later. -/
def Mono (mem : List (Option (QueueNode T))) : Prop :=
  ∀ a n, memAt mem a = some n →
    a ≤ mem.length ∧ (n.next ≠ 0 → a < n.next ∧ n.next ≤ mem.length)

/-- At most one live node has a null `next`, namely the one at `t`. -/
def UniqNull (mem : List (Option (QueueNode T))) (t : Nat) : Prop :=
  ∀ a n, memAt mem a = some n → n.next = 0 → a = t

/-- Sequential state invariant of the unbounded queue, with its logical
contents. -/
def QInv (q : LockFreeQueue T) (items : List T) : Prop :=
  ChainTo q.mem q.tail q.head items ∧ Mono q.mem ∧ UniqNull q.mem q.tail

/-- States of the unbounded queue reachable by sequential operations. -/
inductive QReach (T : Type) : LockFreeQueue T → Prop
  | new : QReach T (LockFreeQueue.new T)
  | enq (v : T) {q q' : LockFreeQueue T} (h : QReach T q)
      (he : q.enqueue v = some q') : QReach T q'
  | deq {q : LockFreeQueue T} {p : Option T × LockFreeQueue T} (h : QReach T q)
      (hd : q.dequeue = some p) : QReach T p.2

/-- The stack chain: from `top` address `a`, following `next` reaches null,
and the values met on the way are `vs`. -/
inductive SChain (mem : List (Option (StackNode T))) : Nat → List T → Prop
  | nil : SChain mem 0 []
  | cons (a : Nat) (n : StackNode T) (vs : List T)
      (ha : memAt mem a = some n) (hrest : SChain mem n.next vs) :
      SChain mem a (n.value :: vs)

/-- Allocation-order discipline of the stack arena: live nodes sit in the
arena and point (or are null) strictly downwards in allocation order. -/
def SMono (mem : List (Option (StackNode T))) : Prop :=
  ∀ a n, memAt mem a = some n → a ≤ mem.length ∧ n.next < a

/-- Sequential state invariant of the stack, with its logical contents
(top of stack first). -/
def SInv (s : LockFreeStack T) (items : List T) : Prop :=
  SChain s.mem s.top items ∧ SMono s.mem

/-- Sequential state invariant of the bounded queue, with its logical
contents (front of queue first): the capacity is a positive power of two,
the buffer has exactly `capacity` cells, the occupancy `tail - head` is at
most `capacity`, and the cells at positions `head..tail-1` (mod capacity)
hold the items in order. -/
structure BInv (q : BoundedLockFreeQueue T) (items : List T) : Prop where
  pow : ∃ k, q.capacity = 2 ^ k
  buflen : q.buffer.length = q.capacity
  hle : q.head ≤ q.tail
  size : q.tail - q.head ≤ q.capacity
  len_items : items.length = q.tail - q.head
  cells : ∀ j, j < items.length →
    (q.buffer[(q.head + j) % q.capacity]?).join = items[j]?

/-- States of the bounded queue reachable by sequential operations (the
read-only queries do not mutate). -/
inductive BReach (T : Type) : BoundedLockFreeQueue T → Prop
  | new (c : Nat) : BReach T (BoundedLockFreeQueue.new T c)
  | enq (v : T) {q : BoundedLockFreeQueue T} (h : BReach T q) :
      BReach T (q.enqueue v).2
  | deq {q : BoundedLockFreeQueue T} (h : BReach T q) : BReach T q.dequeue.2

/-! ## Arena lemmas -/

theorem memAt_bounds {mem : List (Option α)} {a : Nat} {x : α}
    (h : memAt mem a = some x) : 1 ≤ a ∧ a ≤ mem.length := by
  match a with
  | 0 => simp [memAt] at h
  | i + 1 =>
    simp only [memAt, Option.join_eq_some] at h
    obtain ⟨hlt, -⟩ := List.getElem?_eq_some.mp h
    omega

theorem memAt_append_left {mem l : List (Option α)} {a : Nat} {x : α}
    (h : memAt mem a = some x) : memAt (mem ++ l) a = some x := by
  match a with
  | 0 => simp [memAt] at h
  | i + 1 =>
    simp only [memAt, Option.join_eq_some] at h ⊢
    obtain ⟨hlt, -⟩ := List.getElem?_eq_some.mp h
    rw [List.getElem?_append_left hlt]
    exact h

theorem memAt_alloc (mem : List (Option α)) (n : α) :
    memAt (mem ++ [some n]) (mem.length + 1) = some n := by
  simp only [memAt, List.getElem?_concat_length]
  rfl

theorem length_memWrite (mem : List (Option α)) (a : Nat) (x : Option α) :
    (memWrite mem a x).length = mem.length := by
  match a with
  | 0 => rfl
  | i + 1 => simp [memWrite]

theorem memAt_memWrite_self {mem : List (Option α)} {a : Nat} (x : Option α)
    (h1 : 1 ≤ a) (h2 : a ≤ mem.length) : memAt (memWrite mem a x) a = x := by
  match a with
  | 0 => omega
  | i + 1 =>
    simp only [memWrite, memAt]
    rw [List.getElem?_set_self (by omega)]
    cases x <;> rfl

theorem memAt_memWrite_ne {mem : List (Option α)} {a b : Nat} (x : Option α)
    (h : b ≠ a) : memAt (memWrite mem a x) b = memAt mem b := by
  match a, b with
  | 0, _ => rfl
  | _ + 1, 0 => rfl
  | i + 1, j + 1 =>
    simp only [memWrite, memAt]
    rw [List.getElem?_set_ne (by omega)]

theorem length_setNext (mem : List (Option (QueueNode T))) (a w : Nat) :
    (setNext mem a w).length = mem.length := by
  unfold setNext
  cases memAt mem a with
  | none => rfl
  | some n => exact length_memWrite ..

theorem memAt_setNext_self {mem : List (Option (QueueNode T))} {a : Nat}
    {n : QueueNode T} (w : Nat) (h : memAt mem a = some n) :
    memAt (setNext mem a w) a = some { n with next := w } := by
  have hb := memAt_bounds h
  unfold setNext
  rw [h]
  exact memAt_memWrite_self _ hb.1 hb.2

theorem memAt_setNext_ne {mem : List (Option (QueueNode T))} {a b : Nat}
    (w : Nat) (h : b ≠ a) : memAt (setNext mem a w) b = memAt mem b := by
  unfold setNext
  cases memAt mem a with
  | none => rfl
  | some n => exact memAt_memWrite_ne _ h

/-! ## Power-of-two lemmas -/

theorem nextPow2Go_eq_go (n : Nat) :
    ∀ (fuel p : Nat) (h : 0 < p), n - p ≤ fuel →
      nextPow2Go fuel p n = Nat.nextPowerOfTwo.go n p h := by
  intro fuel
  induction fuel with
  | zero =>
    intro p h hle
    unfold Nat.nextPowerOfTwo.go
    rw [if_neg (by omega)]
    rfl
  | succ fuel ih =>
    intro p h hle
    unfold Nat.nextPowerOfTwo.go
    by_cases hlt : p < n
    · rw [if_pos hlt]
      show (if p < n then nextPow2Go fuel (p * 2) n else p) = _
      rw [if_pos hlt]
      exact ih (p * 2) (by omega) (by omega)
    · rw [if_neg hlt]
      show (if p < n then nextPow2Go fuel (p * 2) n else p) = _
      rw [if_neg hlt]

theorem nextPow2_eq (n : Nat) : nextPow2 n = Nat.nextPowerOfTwo n :=
  nextPow2Go_eq_go n n 1 Nat.one_pos (by omega)

theorem nextPow2_isPowerOfTwo (n : Nat) : Nat.isPowerOfTwo (nextPow2 n) := by
  rw [nextPow2_eq]
  exact Nat.isPowerOfTwo_nextPowerOfTwo n

theorem nextPow2_pos (n : Nat) : 0 < nextPow2 n :=
  Nat.pos_of_isPowerOfTwo (nextPow2_isPowerOfTwo n)

theorem nextPow2Go_pow (k : Nat) :
    ∀ fuel j, j ≤ k → k - j ≤ fuel → nextPow2Go fuel (2 ^ j) (2 ^ k) = 2 ^ k := by
  intro fuel
  induction fuel with
  | zero =>
    intro j hj hf
    have hjk : j = k := by omega
    subst hjk
    rfl
  | succ fuel ih =>
    intro j hj hf
    show (if 2 ^ j < 2 ^ k then nextPow2Go fuel (2 ^ j * 2) (2 ^ k) else 2 ^ j) = 2 ^ k
    by_cases hlt : 2 ^ j < 2 ^ k
    · rw [if_pos hlt]
      have hjk : j < k := (Nat.pow_lt_pow_iff_right Nat.one_lt_two).mp hlt
      rw [← Nat.pow_succ]
      exact ih (j + 1) hjk (by omega)
    · rw [if_neg hlt]
      have hkj : k ≤ j := by
        by_contra hc
        exact hlt (Nat.pow_lt_pow_right Nat.one_lt_two (by omega))
      have hjk : j = k := Nat.le_antisymm hj hkj
      rw [hjk]

theorem nextPow2_pow (k : Nat) : nextPow2 (2 ^ k) = 2 ^ k := by
  have hk : k < 2 ^ k := Nat.lt_two_pow k
  have h1 : (2 : Nat) ^ 0 = 1 := rfl
  have := nextPow2Go_pow k (2 ^ k) 0 (Nat.zero_le k) (by omega)
  rw [h1] at this
  exact this

/-- If two counters are distinct and closer than the modulus, their residues
differ. -/
theorem mod_ne_of_lt_of_sub_lt {m a b : Nat} (hab : a < b) (hs : b - a < m) :
    a % m ≠ b % m := by
  intro h
  have hd : m ∣ b - a := (Nat.modEq_iff_dvd' (Nat.le_of_lt hab)).mp h
  have := Nat.le_of_dvd (by omega) hd
  omega

/-! ## Bounded queue lemmas -/

theorem mask_eq_mod {cap : Nat} (hpow : ∃ k, cap = 2 ^ k) (x : Nat) :
    x &&& (cap - 1) = x % cap := by
  obtain ⟨k, rfl⟩ := hpow
  exact Nat.and_pow_two_sub_one_eq_mod x k

theorem BInv.cap_pos {q : BoundedLockFreeQueue T} {items : List T}
    (h : BInv q items) : 0 < q.capacity := by
  obtain ⟨k, hk⟩ := h.pow
  rw [hk]
  exact Nat.pos_pow_of_pos k (by omega)

theorem BInv.of_new (T : Type) (c : Nat) : BInv (BoundedLockFreeQueue.new T c) [] where
  pow := nextPow2_isPowerOfTwo c
  buflen := List.length_replicate ..
  hle := Nat.le_refl 0
  size := Nat.zero_le _
  len_items := rfl
  cells := by intro j hj; simp at hj

theorem BInv.enqueue_eq {q : BoundedLockFreeQueue T} {items : List T}
    (h : BInv q items) (hnf : q.tail - q.head < q.capacity) (v : T) :
    q.enqueue v = (Except.ok (),
      { q with buffer := q.buffer.set (q.tail % q.capacity) (some v),
               tail := q.tail + 1 }) := by
  unfold BoundedLockFreeQueue.enqueue
  rw [if_neg (by omega), mask_eq_mod h.pow]

theorem BInv.enqueue_ok {q : BoundedLockFreeQueue T} {items : List T}
    (h : BInv q items) (hnf : q.tail - q.head < q.capacity) (v : T) :
    (q.enqueue v).1 = Except.ok () ∧ BInv (q.enqueue v).2 (items ++ [v]) := by
  have hcap : 0 < q.capacity := h.cap_pos
  have hle := h.hle
  have hlen := h.len_items
  rw [h.enqueue_eq hnf v]
  refine ⟨rfl, ?_, ?_, ?_, ?_, ?_, ?_⟩
  · exact h.pow
  · show (q.buffer.set (q.tail % q.capacity) (some v)).length = q.capacity
    rw [List.length_set]
    exact h.buflen
  · show q.head ≤ q.tail + 1
    omega
  · show q.tail + 1 - q.head ≤ q.capacity
    omega
  · show (items ++ [v]).length = q.tail + 1 - q.head
    rw [List.length_append]
    simp only [List.length_cons, List.length_nil]
    omega
  · intro j hj
    show ((q.buffer.set (q.tail % q.capacity) (some v))[(q.head + j) % q.capacity]?).join
        = (items ++ [v])[j]?
    simp only [List.length_append, List.length_cons, List.length_nil] at hj
    rcases Nat.lt_or_ge j items.length with hjl | hjg
    · have hne : q.tail % q.capacity ≠ (q.head + j) % q.capacity :=
        (mod_ne_of_lt_of_sub_lt (by omega) (by omega)).symm
      rw [List.getElem?_set_ne hne]
      rw [List.getElem?_append_left hjl]
      exact h.cells j hjl
    · have hje : j = items.length := by omega
      subst hje
      have hht : q.head + items.length = q.tail := by omega
      rw [hht]
      rw [List.getElem?_set_self (by rw [h.buflen]; exact Nat.mod_lt _ hcap)]
      rw [List.getElem?_concat_length]
      rfl

theorem bounded_enqueue_full {q : BoundedLockFreeQueue T}
    (hf : q.capacity ≤ q.tail - q.head) (v : T) :
    q.enqueue v = (Except.error v, q) := by
  unfold BoundedLockFreeQueue.enqueue
  rw [if_pos hf]

theorem bounded_enqueue_not_full {q : BoundedLockFreeQueue T}
    (hf : q.tail - q.head < q.capacity) (v : T) :
    (q.enqueue v).1 = Except.ok () := by
  unfold BoundedLockFreeQueue.enqueue
  rw [if_neg (by omega)]

theorem BInv.dequeue_on_empty {q : BoundedLockFreeQueue T}
    (h : BInv q []) : q.dequeue = (none, q) := by
  have hlen := h.len_items
  have hle := h.hle
  simp only [List.length_nil] at hlen
  unfold BoundedLockFreeQueue.dequeue
  rw [if_pos (by omega)]

theorem BInv.dequeue_eq {q : BoundedLockFreeQueue T} {items : List T}
    (h : BInv q items) (hlt : q.head < q.tail) :
    q.dequeue = ((q.buffer[q.head % q.capacity]?).join,
      { q with buffer := q.buffer.set (q.head % q.capacity) none,
               head := q.head + 1 }) := by
  unfold BoundedLockFreeQueue.dequeue
  rw [if_neg (by omega), mask_eq_mod h.pow]

theorem BInv.dequeue_step {q : BoundedLockFreeQueue T} {v : T} {items : List T}
    (h : BInv q (v :: items)) :
    q.dequeue.1 = some v ∧ BInv q.dequeue.2 items := by
  have hcap : 0 < q.capacity := h.cap_pos
  have hlen := h.len_items
  simp only [List.length_cons] at hlen
  have hle := h.hle
  have hsz := h.size
  have hlt : q.head < q.tail := by omega
  have hcell0 := h.cells 0 (by simp)
  rw [Nat.add_zero] at hcell0
  simp only [List.getElem?_cons_zero] at hcell0
  rw [h.dequeue_eq hlt]
  refine ⟨hcell0, ?_, ?_, ?_, ?_, ?_, ?_⟩
  · exact h.pow
  · show (q.buffer.set (q.head % q.capacity) none).length = q.capacity
    rw [List.length_set]
    exact h.buflen
  · show q.head + 1 ≤ q.tail
    omega
  · show q.tail - (q.head + 1) ≤ q.capacity
    omega
  · show items.length = q.tail - (q.head + 1)
    omega
  · intro j hj
    show ((q.buffer.set (q.head % q.capacity) none)[(q.head + 1 + j) % q.capacity]?).join
        = items[j]?
    have hne : q.head % q.capacity ≠ (q.head + 1 + j) % q.capacity :=
      mod_ne_of_lt_of_sub_lt (by omega) (by omega)
    rw [List.getElem?_set_ne hne]
    have hidx : q.head + 1 + j = q.head + (j + 1) := by omega
    have hc := h.cells (j + 1) (by simp only [List.length_cons]; omega)
    rw [hidx, hc]
    simp

theorem BReach.exists_binv {q : BoundedLockFreeQueue T} (h : BReach T q) :
    ∃ items, BInv q items := by
  induction h with
  | new c => exact ⟨[], BInv.of_new T c⟩
  | @enq v q h ih =>
    obtain ⟨items, hi⟩ := ih
    rcases Nat.lt_or_ge (q.tail - q.head) q.capacity with hnf | hf
    · exact ⟨items ++ [v], (hi.enqueue_ok hnf v).2⟩
    · rw [bounded_enqueue_full hf v]
      exact ⟨items, hi⟩
  | @deq q h ih =>
    obtain ⟨items, hi⟩ := ih
    cases items with
    | nil =>
      rw [hi.dequeue_on_empty]
      exact ⟨[], hi⟩
    | cons v vs => exact ⟨vs, (hi.dequeue_step).2⟩

/-! ## Stack lemmas -/

theorem memWrite_oob {mem : List (Option α)} {a : Nat} (x : Option α)
    (h : mem.length < a) : memWrite mem a x = mem := by
  match a with
  | 0 => rfl
  | i + 1 =>
    show mem.set i x = mem
    exact List.set_eq_of_length_le (by omega)

theorem memAt_append_single {mem : List (Option α)} {x : Option α} {a : Nat} {n : α}
    (h : memAt (mem ++ [x]) a = some n) :
    memAt mem a = some n ∨ (a = mem.length + 1 ∧ x = some n) := by
  match a with
  | 0 => simp [memAt] at h
  | i + 1 =>
    simp only [memAt, Option.join_eq_some] at h ⊢
    rcases Nat.lt_or_ge i mem.length with hlt | hge
    · left
      rw [List.getElem?_append_left hlt] at h
      exact h
    · right
      obtain ⟨hil, -⟩ := List.getElem?_eq_some.mp h
      simp only [List.length_append, List.length_cons, List.length_nil] at hil
      have hie : i = mem.length := by omega
      subst hie
      rw [List.getElem?_concat_length] at h
      exact ⟨rfl, by injection h⟩

theorem schain_nil_inv {mem : List (Option (StackNode T))} {a : Nat}
    (h : SChain mem a []) : a = 0 := by
  cases h
  rfl

theorem schain_cons_inv {mem : List (Option (StackNode T))} {a : Nat} {v : T}
    {vs : List T} (h : SChain mem a (v :: vs)) :
    ∃ n, memAt mem a = some n ∧ n.value = v ∧ SChain mem n.next vs := by
  cases h with
  | cons a n vs ha hrest => exact ⟨n, ha, rfl, hrest⟩

theorem schain_top_le {mem : List (Option (StackNode T))} {a : Nat} {vs : List T}
    (h : SChain mem a vs) : a ≤ mem.length := by
  cases h with
  | nil => exact Nat.zero_le _
  | cons a n vs ha hrest => exact (memAt_bounds ha).2

theorem SChain.append_right {mem : List (Option (StackNode T))}
    {l : List (Option (StackNode T))} {a : Nat} {vs : List T}
    (h : SChain mem a vs) : SChain (mem ++ l) a vs := by
  induction h with
  | nil => exact SChain.nil
  | cons a n vs ha hrest ih => exact SChain.cons a n vs (memAt_append_left ha) ih

theorem SChain.free_above {mem : List (Option (StackNode T))} {a : Nat} {vs : List T}
    (h : SChain mem a vs) (hmono : SMono mem) :
    ∀ b, a < b → SChain (memWrite mem b none) a vs := by
  induction h with
  | nil => intro b hb; exact SChain.nil
  | cons a n vs ha hrest ih =>
    intro b hb
    refine SChain.cons a n vs ?_ (ih b ?_)
    · rw [memAt_memWrite_ne _ (by omega)]
      exact ha
    · have := (hmono a n ha).2
      omega

theorem SMono.free_node {mem : List (Option (StackNode T))} (h : SMono mem) (b : Nat) :
    SMono (memWrite mem b none) := by
  intro a n ha
  rw [length_memWrite]
  by_cases hab : a = b
  · subst hab
    rcases Nat.lt_or_ge mem.length a with hoob | hle
    · rw [memWrite_oob _ hoob] at ha
      exact h a n ha
    · rcases Nat.eq_zero_or_pos a with h0 | h1
      · subst h0
        simp [memAt] at ha
      · rw [memAt_memWrite_self _ h1 hle] at ha
        cases ha
  · rw [memAt_memWrite_ne _ hab] at ha
    exact h a n ha

theorem SInv.of_new_s (T : Type) : SInv (LockFreeStack.new T) [] := by
  constructor
  · exact SChain.nil
  · intro a n ha
    cases a <;> simp [memAt, LockFreeStack.new] at ha

theorem SInv.push {s : LockFreeStack T} {items : List T} (h : SInv s items) (v : T) :
    SInv (s.push v) (v :: items) := by
  obtain ⟨hchain, hmono⟩ := h
  constructor
  · exact SChain.cons _ ⟨v, s.top⟩ _ (memAt_alloc ..) hchain.append_right
  · intro a n ha
    show a ≤ (s.mem ++ [some (StackNode.mk v s.top)]).length ∧ n.next < a
    simp only [List.length_append, List.length_cons, List.length_nil]
    rcases memAt_append_single ha with hold | ⟨hae, hne⟩
    · have := hmono a n hold
      omega
    · have htop : s.top ≤ s.mem.length := schain_top_le hchain
      injection hne with hne
      subst hne
      simp only
      omega

theorem SInv.pop_nil {s : LockFreeStack T} (h : SInv s []) : s.pop = some (none, s) := by
  have h0 : s.top = 0 := schain_nil_inv h.1
  unfold LockFreeStack.pop
  rw [if_pos h0]

theorem SInv.pop_cons {s : LockFreeStack T} {v : T} {items : List T}
    (h : SInv s (v :: items)) :
    ∃ s', s.pop = some (some v, s') ∧ SInv s' items := by
  obtain ⟨hchain, hmono⟩ := h
  obtain ⟨n, ha, hv, hrest⟩ := schain_cons_inv hchain
  have htop : s.top ≠ 0 := by
    intro h0
    rw [h0] at ha
    simp [memAt] at ha
  have hlt : n.next < s.top := (hmono _ _ ha).2
  refine ⟨LockFreeStack.mk (memWrite s.mem s.top none) n.next, ?_, ?_, ?_⟩
  · unfold LockFreeStack.pop
    rw [if_neg htop, ha]
    dsimp only
    rw [hv]
  · exact hrest.free_above hmono s.top hlt
  · exact hmono.free_node s.top

theorem SInv.popN_eq {s : LockFreeStack T} {items : List T} (h : SInv s items) :
    ∃ s', s.popN items.length = some (items.map some, s') ∧ SInv s' [] := by
  induction items generalizing s with
  | nil => exact ⟨s, rfl, h⟩
  | cons v vs ih =>
    obtain ⟨s₁, hpop, hinv⟩ := h.pop_cons
    obtain ⟨s₂, hN, hinv₂⟩ := ih hinv
    refine ⟨s₂, ?_, hinv₂⟩
    show s.popN (vs.length + 1) = some (some v :: vs.map some, s₂)
    unfold LockFreeStack.popN
    rw [hpop]
    dsimp only
    rw [hN]

theorem SInv.pushAll_inv {s : LockFreeStack T} {items : List T} (h : SInv s items)
    (l : List T) : SInv (s.pushAll l) (l.reverse ++ items) := by
  induction l generalizing s items with
  | nil => simpa using h
  | cons v vs ih =>
    have hi := ih (h.push v)
    show SInv ((s.push v).pushAll vs) ((v :: vs).reverse ++ items)
    simp only [List.reverse_cons, List.append_assoc, List.singleton_append]
    simpa using hi

/-! ## Unbounded queue lemmas -/

theorem memAt_of_memWrite_none {mem : List (Option α)} {a b : Nat} {n : α}
    (ha : memAt (memWrite mem b none) a = some n) : memAt mem a = some n := by
  by_cases hab : a = b
  · subst hab
    rcases Nat.lt_or_ge mem.length a with hoob | hle
    · rwa [memWrite_oob _ hoob] at ha
    · rcases Nat.eq_zero_or_pos a with h0 | h1
      · subst h0
        simp [memAt] at ha
      · rw [memAt_memWrite_self _ h1 hle] at ha
        cases ha
  · rwa [memAt_memWrite_ne _ hab] at ha

theorem chainTo_tail {mem : List (Option (QueueNode T))} {t a : Nat} {vs : List T}
    (h : ChainTo mem t a vs) : ∃ tn, memAt mem t = some tn ∧ tn.next = 0 := by
  induction h with
  | nil n ha hn => exact ⟨n, ha, hn⟩
  | cons a n m v vs ha hb hv hrest ih => exact ih

theorem chainTo_head_alloc {mem : List (Option (QueueNode T))} {t a : Nat} {vs : List T}
    (h : ChainTo mem t a vs) : ∃ n, memAt mem a = some n := by
  cases h with
  | nil n ha hn => exact ⟨n, ha⟩
  | cons a n m v vs ha hb hv hrest => exact ⟨n, ha⟩

theorem chainTo_nil_inv {mem : List (Option (QueueNode T))} {t a : Nat}
    (h : ChainTo mem t a []) : a = t := by
  cases h
  rfl

theorem chainTo_cons_inv {mem : List (Option (QueueNode T))} {t a : Nat} {v : T}
    {vs : List T} (h : ChainTo mem t a (v :: vs)) :
    ∃ n m, memAt mem a = some n ∧ memAt mem n.next = some m ∧ m.value = some v ∧
      ChainTo mem t n.next vs := by
  cases h with
  | cons a n m v vs ha hb hv hrest => exact ⟨n, m, ha, hb, hv, hrest⟩

theorem chainTo_reaches {mem : List (Option (QueueNode T))} {t a : Nat} {vs : List T}
    (h : ChainTo mem t a vs) : Reaches mem a t := by
  induction h with
  | nil n ha hn => exact Reaches.refl t
  | cons a n m v vs ha hb hv hrest ih => exact Reaches.step a t n ha ih

theorem ChainTo.free_below {mem : List (Option (QueueNode T))} {t a : Nat} {vs : List T}
    (h : ChainTo mem t a vs) (hmono : Mono mem) :
    ∀ b, b < a → ChainTo (memWrite mem b none) t a vs := by
  induction h with
  | nil n ha hn =>
    intro b hb
    exact ChainTo.nil n (by rw [memAt_memWrite_ne _ (by omega)]; exact ha) hn
  | cons a n m v vs ha hb2 hv hrest ih =>
    intro b hb
    have hnn0 : n.next ≠ 0 := by
      intro h0
      rw [h0] at hb2
      simp [memAt] at hb2
    have han : a < n.next := ((hmono _ _ ha).2 hnn0).1
    refine ChainTo.cons a n m v vs ?_ ?_ hv (ih b (by omega))
    · rw [memAt_memWrite_ne _ (by omega)]
      exact ha
    · rw [memAt_memWrite_ne _ (by omega)]
      exact hb2

theorem Mono.free_node_q {mem : List (Option (QueueNode T))} (h : Mono mem) (b : Nat) :
    Mono (memWrite mem b none) := by
  intro a n ha
  rw [length_memWrite]
  exact h a n (memAt_of_memWrite_none ha)

theorem UniqNull.free_node_u {mem : List (Option (QueueNode T))} {t : Nat}
    (h : UniqNull mem t) (b : Nat) : UniqNull (memWrite mem b none) t := by
  intro a n ha h0
  exact h a n (memAt_of_memWrite_none ha) h0

theorem QInv.of_new_q (T : Type) : QInv (LockFreeQueue.new T) [] := by
  refine ⟨ChainTo.nil ⟨none, 0⟩ rfl rfl, ?_, ?_⟩
  · intro a n ha
    match a with
    | 0 => simp [memAt] at ha
    | 1 =>
      have hn : QueueNode.mk (T := T) none 0 = n := by
        simpa [memAt, LockFreeQueue.new] using ha
      refine ⟨by simp [LockFreeQueue.new], ?_⟩
      intro hc
      rw [← hn] at hc
      simp at hc
    | (a + 2) => simp [memAt, LockFreeQueue.new] at ha
  · intro a n ha h0
    match a with
    | 0 => simp [memAt] at ha
    | 1 => rfl
    | (a + 2) => simp [memAt, LockFreeQueue.new] at ha

theorem ChainTo.extend_chain {mem : List (Option (QueueNode T))} {t : Nat} {vs : List T}
    {a : Nat} (h : ChainTo mem t a vs) (v : T) :
    ChainTo (setNext (mem ++ [some ⟨some v, 0⟩]) t (mem.length + 1))
      (mem.length + 1) a (vs ++ [v]) := by
  induction h with
  | nil n ha hn =>
    have ht_le : t ≤ mem.length := (memAt_bounds ha).2
    have hne : mem.length + 1 ≠ t := by omega
    refine ChainTo.cons t { n with next := mem.length + 1 } ⟨some v, 0⟩ v []
      (memAt_setNext_self _ (memAt_append_left ha)) ?_ rfl ?_
    · show memAt _ (mem.length + 1) = _
      rw [memAt_setNext_ne _ hne]
      exact memAt_alloc ..
    · refine ChainTo.nil ⟨some v, 0⟩ ?_ rfl
      rw [memAt_setNext_ne _ hne]
      exact memAt_alloc ..
  | cons a n m w ws ha hb hv hrest ih =>
    obtain ⟨tn, htn, htn0⟩ := chainTo_tail hrest
    have hnn0 : n.next ≠ 0 := by
      intro h0
      rw [h0] at hb
      simp [memAt] at hb
    have hat : a ≠ t := by
      intro hat
      rw [hat, htn] at ha
      injection ha with ha
      rw [ha] at htn0
      exact hnn0 htn0
    by_cases hnt : n.next = t
    · refine ChainTo.cons a n { tn with next := mem.length + 1 } w (ws ++ [v]) ?_ ?_ ?_ ih
      · rw [memAt_setNext_ne _ hat]
        exact memAt_append_left ha
      · rw [hnt]
        exact memAt_setNext_self _ (memAt_append_left htn)
      · have hmt : m = tn := by
          rw [hnt, htn] at hb
          injection hb with hb
          exact hb.symm
        show tn.value = some w
        rw [← hmt]
        exact hv
    · refine ChainTo.cons a n m w (ws ++ [v]) ?_ ?_ hv ih
      · rw [memAt_setNext_ne _ hat]
        exact memAt_append_left ha
      · rw [memAt_setNext_ne _ hnt]
        exact memAt_append_left hb

theorem Mono.extend_mono {mem : List (Option (QueueNode T))} (hmono : Mono mem)
    {t : Nat} {tn : QueueNode T} (htn : memAt mem t = some tn) (v : T) :
    Mono (setNext (mem ++ [some ⟨some v, 0⟩]) t (mem.length + 1)) := by
  intro a n ha
  have hlen : (setNext (mem ++ [some (QueueNode.mk (T := T) (some v) 0)]) t
      (mem.length + 1)).length = mem.length + 1 := by
    rw [length_setNext]
    simp
  rw [hlen]
  have ht_le : t ≤ mem.length := (memAt_bounds htn).2
  by_cases hat : a = t
  · subst hat
    rw [memAt_setNext_self _ (memAt_append_left htn)] at ha
    injection ha with ha
    rw [← ha]
    refine ⟨by omega, ?_⟩
    intro hne
    show a < mem.length + 1 ∧ mem.length + 1 ≤ mem.length + 1
    have h1 : 1 ≤ a := (memAt_bounds htn).1
    omega
  · rw [memAt_setNext_ne _ hat] at ha
    rcases memAt_append_single ha with hold | ⟨hae, hne⟩
    · have := hmono a n hold
      refine ⟨by omega, ?_⟩
      intro hn0
      have := (this.2 hn0)
      omega
    · injection hne with hne
      refine ⟨by omega, ?_⟩
      intro hn0
      rw [← hne] at hn0
      simp at hn0

theorem UniqNull.extend_uniq {mem : List (Option (QueueNode T))} {t : Nat}
    (huniq : UniqNull mem t) {tn : QueueNode T} (htn : memAt mem t = some tn) (v : T) :
    UniqNull (setNext (mem ++ [some ⟨some v, 0⟩]) t (mem.length + 1)) (mem.length + 1) := by
  intro a n ha h0
  by_cases hat : a = t
  · subst hat
    rw [memAt_setNext_self _ (memAt_append_left htn)] at ha
    injection ha with ha
    rw [← ha] at h0
    simp at h0
  · rw [memAt_setNext_ne _ hat] at ha
    rcases memAt_append_single ha with hold | ⟨hae, hne⟩
    · exact absurd (huniq a n hold h0) hat
    · exact hae

theorem QInv.enqueue_sim {q : LockFreeQueue T} {items : List T}
    (h : QInv q items) (v : T) :
    ∃ q', q.enqueue v = some q' ∧ QInv q' (items ++ [v]) := by
  obtain ⟨hchain, hmono, huniq⟩ := h
  obtain ⟨tn, htn, htn0⟩ := chainTo_tail hchain
  have htn1 : memAt (q.mem ++ [some (QueueNode.mk (some v) 0)]) q.tail = some tn :=
    memAt_append_left htn
  refine ⟨LockFreeQueue.mk
      (setNext (q.mem ++ [some (QueueNode.mk (some v) 0)]) q.tail (q.mem.length + 1))
      q.head (q.mem.length + 1), ?_, ?_, ?_, ?_⟩
  · show LockFreeQueue.enqLoop T ((q.mem ++ [some (QueueNode.mk (some v) 0)]).length + 1)
        (q.mem ++ [some (QueueNode.mk (some v) 0)]) q.head q.tail (q.mem.length + 1) = _
    have hfuel : (q.mem ++ [some (QueueNode.mk (T := T) (some v) 0)]).length + 1
        = (q.mem.length + 1) + 1 := by simp
    rw [hfuel]
    unfold LockFreeQueue.enqLoop
    rw [htn1]
    dsimp only
    rw [if_pos htn0]
  · exact hchain.extend_chain v
  · exact hmono.extend_mono htn v
  · exact huniq.extend_uniq htn v

theorem QInv.dequeue_on_empty_q {q : LockFreeQueue T} (h : QInv q []) :
    q.dequeue = some (none, q) := by
  obtain ⟨hchain, hmono, huniq⟩ := h
  have hht : q.head = q.tail := chainTo_nil_inv hchain
  obtain ⟨tn, htn, htn0⟩ := chainTo_tail hchain
  have hhtn : memAt q.mem q.head = some tn := by
    rw [hht]
    exact htn
  show LockFreeQueue.deqLoop T (q.mem.length + 1) q.mem q.head q.tail = some (none, q)
  unfold LockFreeQueue.deqLoop
  rw [hhtn]
  dsimp only
  rw [if_pos hht, if_pos htn0]

theorem QInv.dequeue_step_q {q : LockFreeQueue T} {v : T} {items : List T}
    (h : QInv q (v :: items)) :
    ∃ q', q.dequeue = some (some v, q') ∧ QInv q' items := by
  obtain ⟨hchain, hmono, huniq⟩ := h
  obtain ⟨n, m, ha, hb, hv, hrest⟩ := chainTo_cons_inv hchain
  obtain ⟨tn, htn, htn0⟩ := chainTo_tail hchain
  have hnn0 : n.next ≠ 0 := by
    intro h0
    rw [h0] at hb
    simp [memAt] at hb
  have hht : q.head ≠ q.tail := by
    intro he
    rw [he, htn] at ha
    injection ha with ha
    rw [ha] at htn0
    exact hnn0 htn0
  have hlt : q.head < n.next := ((hmono _ _ ha).2 hnn0).1
  refine ⟨LockFreeQueue.mk (memWrite q.mem q.head none) n.next q.tail, ?_, ?_, ?_, ?_⟩
  · show LockFreeQueue.deqLoop T (q.mem.length + 1) q.mem q.head q.tail = _
    unfold LockFreeQueue.deqLoop
    rw [ha]
    dsimp only
    rw [if_neg hht, hb]
    dsimp only
    rw [hv]
  · exact hrest.free_below hmono q.head hlt
  · exact hmono.free_node_q q.head
  · exact huniq.free_node_u q.head

theorem QReach.exists_qinv {q : LockFreeQueue T} (h : QReach T q) :
    ∃ items, QInv q items := by
  induction h with
  | new => exact ⟨[], QInv.of_new_q T⟩
  | @enq v q q' h he ih =>
    obtain ⟨items, hi⟩ := ih
    obtain ⟨q₂, he₂, hinv⟩ := hi.enqueue_sim v
    rw [he] at he₂
    injection he₂ with he₂
    exact ⟨items ++ [v], he₂ ▸ hinv⟩
  | @deq q p h hd ih =>
    obtain ⟨items, hi⟩ := ih
    cases items with
    | nil =>
      have := hi.dequeue_on_empty_q
      rw [hd] at this
      injection this with this
      rw [this]
      exact ⟨[], hi⟩
    | cons v vs =>
      obtain ⟨q', hdq, hinv⟩ := hi.dequeue_step_q
      rw [hd] at hdq
      injection hdq with hdq
      rw [hdq]
      exact ⟨vs, hinv⟩

theorem QInv.enqueueAll_sim {q : LockFreeQueue T} {items : List T}
    (h : QInv q items) (l : List T) :
    ∃ q', q.enqueueAll l = some q' ∧ QInv q' (items ++ l) := by
  induction l generalizing q items with
  | nil => exact ⟨q, rfl, by simpa using h⟩
  | cons v vs ih =>
    obtain ⟨q₁, he, hinv⟩ := h.enqueue_sim v
    obtain ⟨q₂, hall, hinv₂⟩ := ih hinv
    refine ⟨q₂, ?_, ?_⟩
    · show LockFreeQueue.enqueueAll q (v :: vs) = some q₂
      unfold LockFreeQueue.enqueueAll
      rw [he]
      exact hall
    · have hl : items ++ [v] ++ vs = items ++ v :: vs := by
        rw [List.append_assoc, List.singleton_append]
      rw [hl] at hinv₂
      exact hinv₂

theorem QInv.dequeueN_sim {q : LockFreeQueue T} {items : List T} (h : QInv q items) :
    ∃ q', q.dequeueN items.length = some (items.map some, q') ∧ QInv q' [] := by
  induction items generalizing q with
  | nil => exact ⟨q, rfl, h⟩
  | cons v vs ih =>
    obtain ⟨q₁, hd, hinv⟩ := h.dequeue_step_q
    obtain ⟨q₂, hN, hinv₂⟩ := ih hinv
    refine ⟨q₂, ?_, hinv₂⟩
    show q.dequeueN (vs.length + 1) = some (some v :: vs.map some, q₂)
    unfold LockFreeQueue.dequeueN
    rw [hd]
    dsimp only
    rw [hN]

theorem itemsFrom_of_chain {mem : List (Option (QueueNode T))} {t a : Nat}
    {vs : List T} (h : ChainTo mem t a vs) (hmono : Mono mem) :
    ∀ fuel, mem.length + 1 - a ≤ fuel →
      LockFreeQueue.itemsFrom T fuel mem a = some vs := by
  induction h with
  | nil n ha hn =>
    intro fuel hf
    have hb := memAt_bounds ha
    obtain ⟨f, rfl⟩ : ∃ f, fuel = f + 1 := ⟨fuel - 1, by omega⟩
    show LockFreeQueue.itemsFrom T (f + 1) mem t = some []
    unfold LockFreeQueue.itemsFrom
    rw [ha]
    dsimp only
    rw [if_pos hn]
  | cons a n m v vs ha hb hv hrest ih =>
    intro fuel hf
    have hba := memAt_bounds ha
    obtain ⟨f, rfl⟩ : ∃ f, fuel = f + 1 := ⟨fuel - 1, by omega⟩
    have hnn0 : n.next ≠ 0 := by
      intro h0
      rw [h0] at hb
      simp [memAt] at hb
    have hlt := (hmono _ _ ha).2 hnn0
    show LockFreeQueue.itemsFrom T (f + 1) mem a = some (v :: vs)
    unfold LockFreeQueue.itemsFrom
    rw [ha]
    dsimp only
    rw [if_neg hnn0, hb, ih f (by omega)]
    dsimp only
    rw [hv]

theorem QInv.items_eq {q : LockFreeQueue T} {items : List T} (h : QInv q items) :
    q.items = some items :=
  itemsFrom_of_chain h.1 h.2.1 (q.mem.length + 1) (by omega)

theorem BInv.enqueueAll_ok {q : BoundedLockFreeQueue T} {items : List T}
    (h : BInv q items) (l : List T)
    (hok : ((q.enqueueAll l).1.all fun r => r.isOkay) = true) :
    BInv (q.enqueueAll l).2 (items ++ l) := by
  induction l generalizing q items with
  | nil => simpa using h
  | cons v vs ih =>
    have hshape : q.enqueueAll (v :: vs)
        = ((q.enqueue v).1 :: ((q.enqueue v).2.enqueueAll vs).1,
           ((q.enqueue v).2.enqueueAll vs).2) := rfl
    rw [hshape] at hok ⊢
    simp only [List.all_cons, Bool.and_eq_true] at hok
    obtain ⟨hok1, hokrest⟩ := hok
    rcases Nat.lt_or_ge (q.tail - q.head) q.capacity with hnf | hf
    · obtain ⟨-, hinv⟩ := h.enqueue_ok hnf v
      have hfin := ih hinv hokrest
      have hl : items ++ [v] ++ vs = items ++ v :: vs := by
        rw [List.append_assoc, List.singleton_append]
      rw [hl] at hfin
      exact hfin
    · exfalso
      rw [bounded_enqueue_full hf v] at hok1
      simp [Except.isOkay] at hok1

theorem BInv.dequeueN_eq {q : BoundedLockFreeQueue T} {items : List T}
    (h : BInv q items) :
    (q.dequeueN items.length).1 = items.map some
    ∧ BInv (q.dequeueN items.length).2 [] := by
  induction items generalizing q with
  | nil => exact ⟨rfl, h⟩
  | cons v vs ih =>
    have hshape : q.dequeueN (vs.length + 1)
        = (q.dequeue.1 :: (q.dequeue.2.dequeueN vs.length).1,
           (q.dequeue.2.dequeueN vs.length).2) := rfl
    obtain ⟨h1, h2⟩ := h.dequeue_step
    constructor
    · show (q.dequeueN (vs.length + 1)).1 = some v :: vs.map some
      rw [hshape]
      dsimp only
      rw [h1, (ih h2).1]
    · show BInv (q.dequeueN (vs.length + 1)).2 []
      rw [hshape]
      exact (ih h2).2

/-! ## Claim theorems -/

/-- C1: single-thread FIFO law for both queues.  Enqueuing `v1..vn` on a
fresh unbounded queue always succeeds and `n` dequeues return
`some v1, ..., some vn` in that order; on a fresh bounded queue of any
requested capacity, if no enqueue reported full then `n` dequeues return
`some v1, ..., some vn` in that order. -/
theorem fifo_single_thread {T : Type} (l : List T) (c : Nat) :
    (∃ q q', (LockFreeQueue.new T).enqueueAll l = some q
      ∧ q.dequeueN l.length = some (l.map some, q'))
    ∧ ((((BoundedLockFreeQueue.new T c).enqueueAll l).1.all fun r => r.isOkay) = true →
      (((BoundedLockFreeQueue.new T c).enqueueAll l).2.dequeueN l.length).1
        = l.map some) := by
  constructor
  · obtain ⟨q, hall, hinv⟩ := (QInv.of_new_q T).enqueueAll_sim l
    rw [List.nil_append] at hinv
    obtain ⟨q', hN, -⟩ := hinv.dequeueN_sim
    exact ⟨q, q', hall, hN⟩
  · intro hok
    have hfin := (BInv.of_new T c).enqueueAll_ok l hok
    rw [List.nil_append] at hfin
    exact (hfin.dequeueN_eq).1

theorem fifo_single_thread_witness :
    ((((BoundedLockFreeQueue.new Nat 4).enqueueAll [7, 8, 9]).1.all
        fun r => r.isOkay) = true)
    ∧ ((((BoundedLockFreeQueue.new Nat 4).enqueueAll [7, 8, 9]).2.dequeueN 3).1
        = [some 7, some 8, some 9]) :=
  ⟨by decide, (fifo_single_thread [7, 8, 9] 4).2 (by decide)⟩

/-- C2: single-thread LIFO law for the stack.  Pushing `v1..vn` on a fresh
stack and popping `n` times returns `some vn, ..., some v1`, the reverse of
push order. -/
theorem lifo_single_thread {T : Type} (l : List T) :
    ∃ s', ((LockFreeStack.new T).pushAll l).popN l.length
      = some (l.reverse.map some, s') := by
  have h := (SInv.of_new_s T).pushAll_inv l
  rw [List.append_nil] at h
  obtain ⟨s', hN, -⟩ := h.popN_eq
  rw [List.length_reverse] at hN
  exact ⟨s', hN⟩

/-- C3: bounded-queue full handling.  On every sequentially reachable state,
enqueue returns the error case holding back exactly the passed value iff
`tail - head ≥ capacity`; in that case the whole state (head, tail, every
slot) is unchanged; otherwise it returns ok, leaves head alone, bumps tail
by one and writes the value into the slot at `tail & (capacity - 1)`. -/
theorem bounded_enqueue_full_iff {T : Type} {q : BoundedLockFreeQueue T}
    (h : BReach T q) (v : T) :
    ((q.enqueue v).1 = Except.error v ↔ q.capacity ≤ q.tail - q.head)
    ∧ (q.capacity ≤ q.tail - q.head → (q.enqueue v).2 = q)
    ∧ (q.tail - q.head < q.capacity →
        (q.enqueue v).1 = Except.ok ()
        ∧ (q.enqueue v).2.head = q.head
        ∧ (q.enqueue v).2.tail = q.tail + 1
        ∧ (q.enqueue v).2.buffer
            = q.buffer.set (q.tail &&& (q.capacity - 1)) (some v)) := by
  refine ⟨⟨?_, ?_⟩, ?_, ?_⟩
  · intro he
    by_contra hnf
    rw [bounded_enqueue_not_full (by omega) v] at he
    exact Except.noConfusion he
  · intro hf
    rw [bounded_enqueue_full hf v]
  · intro hf
    rw [bounded_enqueue_full hf v]
  · intro hnf
    obtain ⟨items, hi⟩ := h.exists_binv
    rw [hi.enqueue_eq hnf v, mask_eq_mod hi.pow]
    exact ⟨rfl, rfl, rfl, rfl⟩

theorem bounded_enqueue_full_iff_witness :
    (((BoundedLockFreeQueue.new Nat 2).enqueue 5).1 = Except.error 5
        ↔ (BoundedLockFreeQueue.new Nat 2).capacity
            ≤ (BoundedLockFreeQueue.new Nat 2).tail
              - (BoundedLockFreeQueue.new Nat 2).head)
    ∧ ((BoundedLockFreeQueue.new Nat 2).capacity
          ≤ (BoundedLockFreeQueue.new Nat 2).tail
            - (BoundedLockFreeQueue.new Nat 2).head
        → ((BoundedLockFreeQueue.new Nat 2).enqueue 5).2
            = BoundedLockFreeQueue.new Nat 2)
    ∧ ((BoundedLockFreeQueue.new Nat 2).tail - (BoundedLockFreeQueue.new Nat 2).head
          < (BoundedLockFreeQueue.new Nat 2).capacity
        → ((BoundedLockFreeQueue.new Nat 2).enqueue 5).1 = Except.ok ()
          ∧ ((BoundedLockFreeQueue.new Nat 2).enqueue 5).2.head
              = (BoundedLockFreeQueue.new Nat 2).head
          ∧ ((BoundedLockFreeQueue.new Nat 2).enqueue 5).2.tail
              = (BoundedLockFreeQueue.new Nat 2).tail + 1
          ∧ ((BoundedLockFreeQueue.new Nat 2).enqueue 5).2.buffer
              = (BoundedLockFreeQueue.new Nat 2).buffer.set
                  ((BoundedLockFreeQueue.new Nat 2).tail
                    &&& ((BoundedLockFreeQueue.new Nat 2).capacity - 1))
                  (some 5)) :=
  bounded_enqueue_full_iff (BReach.new 2) 5

/-- C4: bounded-queue occupancy invariant.  After any sequence of sequential
operations, `head ≤ tail` and `tail - head ≤ capacity`, hence
`len() ≤ capacity()`. -/
theorem bounded_occupancy_invariant {T : Type} {q : BoundedLockFreeQueue T}
    (h : BReach T q) :
    q.head ≤ q.tail ∧ q.tail - q.head ≤ q.capacity ∧ q.len ≤ q.capacity := by
  obtain ⟨items, hi⟩ := h.exists_binv
  exact ⟨hi.hle, hi.size, hi.size⟩

theorem bounded_occupancy_invariant_witness :
    (BoundedLockFreeQueue.new Nat 3).head ≤ (BoundedLockFreeQueue.new Nat 3).tail
    ∧ (BoundedLockFreeQueue.new Nat 3).tail - (BoundedLockFreeQueue.new Nat 3).head
        ≤ (BoundedLockFreeQueue.new Nat 3).capacity
    ∧ (BoundedLockFreeQueue.new Nat 3).len ≤ (BoundedLockFreeQueue.new Nat 3).capacity :=
  bounded_occupancy_invariant (BReach.new 3)

/-- C5: capacity law.  A bounded queue requested with capacity 10 reports
capacity 16, accepts 16 consecutive enqueues, and the 17th enqueue reports
full handing back the enqueued value unchanged. -/
theorem bounded_capacity_law :
    (BoundedLockFreeQueue.new Nat 10).capacity = 16
    ∧ (((BoundedLockFreeQueue.new Nat 10).enqueueAll (List.range 16)).1.all
        fun r => r.isOkay) = true
    ∧ (((BoundedLockFreeQueue.new Nat 10).enqueueAll (List.range 16)).2.enqueue 16).1
        = Except.error 16 :=
  ⟨rfl, by decide, rfl⟩

/-- C6: empty-container law.  A fresh stack pops empty, a fresh unbounded
queue dequeues empty and reports empty, and a fresh bounded queue of any
requested capacity dequeues empty and reports empty; none of these calls
changes the container state. -/
theorem empty_container_law (T : Type) (c : Nat) :
    (LockFreeStack.new T).pop = some (none, LockFreeStack.new T)
    ∧ (LockFreeQueue.new T).dequeue = some (none, LockFreeQueue.new T)
    ∧ (LockFreeQueue.new T).isEmpty = some true
    ∧ (BoundedLockFreeQueue.new T c).dequeue = (none, BoundedLockFreeQueue.new T c)
    ∧ (BoundedLockFreeQueue.new T c).isEmpty = true :=
  ⟨rfl, rfl, rfl, rfl, rfl⟩

/-- C7: unbounded-queue structural invariant.  On every sequentially
reachable state, head and tail are non-null, tail is reachable from head by
following next pointers, and at most one live node has a null next pointer,
namely the one tail points at. -/
theorem unbounded_structural_invariant {T : Type} {q : LockFreeQueue T}
    (h : QReach T q) :
    q.head ≠ 0 ∧ q.tail ≠ 0 ∧ Reaches q.mem q.head q.tail
    ∧ ∀ a n, memAt q.mem a = some n → n.next = 0 → a = q.tail := by
  obtain ⟨items, hchain, hmono, huniq⟩ := h.exists_qinv
  obtain ⟨hn, hhn⟩ := chainTo_head_alloc hchain
  obtain ⟨tn, htn, -⟩ := chainTo_tail hchain
  refine ⟨?_, ?_, chainTo_reaches hchain, huniq⟩
  · have := memAt_bounds hhn
    omega
  · have := memAt_bounds htn
    omega

theorem unbounded_structural_invariant_witness :
    (LockFreeQueue.new Nat).head ≠ 0 ∧ (LockFreeQueue.new Nat).tail ≠ 0
    ∧ Reaches (LockFreeQueue.new Nat).mem (LockFreeQueue.new Nat).head
        (LockFreeQueue.new Nat).tail
    ∧ ∀ a n, memAt (LockFreeQueue.new Nat).mem a = some n → n.next = 0
        → a = (LockFreeQueue.new Nat).tail :=
  unbounded_structural_invariant QReach.new

/-- C8: unbounded-queue emptiness test.  On every sequentially reachable
state, `is_empty` returns true iff the next pointer of the node head points
to is null, which holds iff the queue carries zero logical items, which
holds iff dequeue would report empty and leave the state unchanged; the
result does not depend on the tail pointer. -/
theorem unbounded_is_empty_iff {T : Type} {q : LockFreeQueue T} (h : QReach T q) :
    ∃ b items, q.isEmpty = some b ∧ q.items = some items
    ∧ (b = true ↔ ∃ n, memAt q.mem q.head = some n ∧ n.next = 0)
    ∧ (b = true ↔ items = [])
    ∧ (b = true ↔ q.dequeue = some (none, q))
    ∧ ∀ t, (LockFreeQueue.mk q.mem q.head t).isEmpty = q.isEmpty := by
  obtain ⟨items, hqi⟩ := h.exists_qinv
  obtain ⟨hchain, hmono, huniq⟩ := hqi
  have hqi : QInv q items := ⟨hchain, hmono, huniq⟩
  obtain ⟨hn, hhn⟩ := chainTo_head_alloc hchain
  have hnext_iff : hn.next = 0 ↔ items = [] := by
    constructor
    · intro h0
      cases items with
      | nil => rfl
      | cons v vs =>
        obtain ⟨n, m, ha, hb, -, -⟩ := chainTo_cons_inv hchain
        rw [hhn] at ha
        injection ha with ha
        rw [← ha, h0] at hb
        simp [memAt] at hb
    · intro hnil
      subst hnil
      have hht : q.head = q.tail := chainTo_nil_inv hchain
      obtain ⟨tn, htn, htn0⟩ := chainTo_tail hchain
      rw [← hht, hhn] at htn
      injection htn with htn
      rw [htn]
      exact htn0
  refine ⟨decide (hn.next = 0), items, ?_, hqi.items_eq, ?_, ?_, ?_, fun t => rfl⟩
  · unfold LockFreeQueue.isEmpty
    rw [hhn]
    rfl
  · rw [decide_eq_true_eq]
    constructor
    · intro h0
      exact ⟨hn, hhn, h0⟩
    · rintro ⟨n, hmem, h0⟩
      rw [hhn] at hmem
      injection hmem with hmem
      rw [hmem]
      exact h0
  · rw [decide_eq_true_eq]
    exact hnext_iff
  · rw [decide_eq_true_eq]
    constructor
    · intro h0
      have hnil : items = [] := hnext_iff.mp h0
      subst hnil
      exact hqi.dequeue_on_empty_q
    · intro hd
      by_contra h0
      cases items with
      | nil => exact h0 (hnext_iff.mpr rfl)
      | cons v vs =>
        obtain ⟨q', hdq, -⟩ := hqi.dequeue_step_q
        rw [hd] at hdq
        injection hdq with hdq
        have hfst := congrArg Prod.fst hdq
        simp at hfst

theorem unbounded_is_empty_iff_witness :
    ∃ b items, (LockFreeQueue.new Nat).isEmpty = some b
    ∧ (LockFreeQueue.new Nat).items = some items
    ∧ (b = true ↔ ∃ n, memAt (LockFreeQueue.new Nat).mem (LockFreeQueue.new Nat).head
          = some n ∧ n.next = 0)
    ∧ (b = true ↔ items = [])
    ∧ (b = true ↔ (LockFreeQueue.new Nat).dequeue
          = some (none, LockFreeQueue.new Nat))
    ∧ ∀ t, (LockFreeQueue.mk (LockFreeQueue.new Nat).mem (LockFreeQueue.new Nat).head
          t).isEmpty = (LockFreeQueue.new Nat).isEmpty :=
  unbounded_is_empty_iff QReach.new

/-- C9: capacity rounding.  The constructed capacity is the next power of
two of the request (the fueled model provably agrees with the library
doubling loop), which fixes exact powers of two, maps 0 to 1, and is never
0; a queue requested with capacity 0 accepts exactly one enqueue and
reports full on the second, handing the second value back. -/
theorem bounded_capacity_rounding (c k : Nat) (v w : Nat) :
    (BoundedLockFreeQueue.new Nat c).capacity = nextPow2 c
    ∧ nextPow2 c = Nat.nextPowerOfTwo c
    ∧ nextPow2 (2 ^ k) = 2 ^ k
    ∧ nextPow2 0 = 1
    ∧ 0 < (BoundedLockFreeQueue.new Nat c).capacity
    ∧ ((BoundedLockFreeQueue.new Nat 0).enqueue v).1 = Except.ok ()
    ∧ (((BoundedLockFreeQueue.new Nat 0).enqueue v).2.enqueue w).1
        = Except.error w :=
  ⟨rfl, nextPow2_eq c, nextPow2_pow k, rfl, nextPow2_pos c, rfl, rfl⟩
